import Mathlib

/-!
Verification of the banked, byte-sliced memory array `mem_array_sep`
(cmod/include/mem_array.h) against its natural-language specification.

Shallow embedding conventions:

* A stored slice is an `sc_lv<SliceWidth>` register.  A fully defined
  (all bits 0/1) pattern holding the natural number `v` is modelled as
  `some v`; the all-X pattern of a default-constructed `sc_lv` is
  modelled as `none`.  Every slice the code ever stores is either a
  default-constructed `sc_lv` (constructor) or a fully defined pattern
  (`clear`, `write`), so `Option Nat` is an exact representation of the
  reachable slice states.
* A value of the element type `T` is identified with its serialized
  `WordWidth`-bit pattern (`TypeToBits` / `BitsToType` are mutually
  inverse marshalling between `T` and flat bit patterns); `read` returns
  the assembled word pattern, `none` when the assembled word contains
  unknown (X) bits and hence denotes no defined `T` value.
* `sc_lv` range extraction `data.range((i+1)*S-1, i*S)` on a defined
  word `v` is `v / 2^(i*S) % 2^S`; range assignment of slice `s` into a
  zero-initialized word contributes `s * 2^(i*S)`.
* The C++ bank member is a fixed-size array `Slice_t
  bank[NumBanks][NumEntriesPerBank*NumByteEnables]`; it is modelled as a
  list of `NumBanks` rows of `NumEntriesPerBank*NumByteEnables` slices
  (the well-formedness predicate `WF`).  Width-constrained indices
  (`LocalIndex`, `BankIndex`) are modelled as `Nat` with explicit range
  hypotheses, matching the spec's caller contract.
-/

/-- One `sc_lv<SliceWidth>` storage cell: `some v` a fully defined bit
pattern with value `v`, `none` the all-X default-constructed pattern. -/
abbrev Slice := Option Nat

/-- The banked, byte-sliced memory `mem_array_sep<T, NumEntries, NumBanks,
NumByteEnables>`.  `WordWidth` is `Wrapped<T>::width`, the serialized bit
width of the element type. -/
structure mem_array_sep where
  NumEntries : Nat
  NumBanks : Nat
  NumByteEnables : Nat
  WordWidth : Nat
  bank : List (List Slice)
  deriving DecidableEq, Repr

namespace mem_array_sep

/-- `NumEntriesPerBank = NumEntries/NumBanks` (source line 84). -/
def NumEntriesPerBank (m : mem_array_sep) : Nat := m.NumEntries / m.NumBanks

/-- `SliceWidth = WordWidth/NumByteEnables` (source line 86). -/
def SliceWidth (m : mem_array_sep) : Nat := m.WordWidth / m.NumByteEnables

/-- Slice `i` of the serialized word `val`:
`write_data.range((i+1)*SliceWidth-1, i*SliceWidth)`. -/
def sliceOfWord (S val i : Nat) : Nat := val / 2 ^ (i * S) % 2 ^ S

/-- The constructor `mem_array_sep()`: every cell of the fixed-size bank
array is assigned a default-constructed `Slice_t value;`, i.e. the all-X
`sc_lv` pattern (`none`). -/
def init (numEntries numBanks numByteEnables wordWidth : Nat) : mem_array_sep :=
  { NumEntries := numEntries, NumBanks := numBanks,
    NumByteEnables := numByteEnables, WordWidth := wordWidth,
    bank := (List.replicate numBanks
      (List.replicate (numEntries / numBanks * numByteEnables) none)) }

/-- `clear()`: every cell of every bank is assigned `Slice_t value = 0;`. -/
def clear (m : mem_array_sep) : mem_array_sep :=
  { m with bank := (List.replicate m.NumBanks
      (List.replicate (m.NumEntriesPerBank * m.NumByteEnables) (some 0))) }

/-- The slice stored at position `j` of bank `bank_sel` (the C++ access
`bank[bank_sel][j]`; out-of-range indices, undefined behaviour in C++,
read as the all-X pattern here). -/
def getSlice (m : mem_array_sep) (bank_sel j : Nat) : Slice :=
  ((m.bank[bank_sel]?.getD [])[j]?.getD none)

/-- The masked slice-update loop of `write`: for each `i` in `l` with
`write_mask[i] == 1`, assign `bank_row[base + i] = tmp[i]` where
`tmp[i]` is slice `i` of the serialized word `val`. -/
def writeRowAux (S val mask base : Nat) (l : List Nat) (row : List Slice) :
    List Slice :=
  l.foldl
    (fun r i =>
      if mask.testBit i then r.set (base + i) (some (sliceOfWord S val i))
      else r)
    row

/-- `write(idx, bank_sel, val, write_mask, wce)`: if `wce` holds, slice
`i` of `TypeToBits(val)` is stored at `bank[bank_sel][idx*NumByteEnables+i]`
for each `i < NumByteEnables` whose mask bit is set; otherwise nothing
changes. -/
def write (m : mem_array_sep) (idx bank_sel val write_mask : Nat)
    (wce : Bool) : mem_array_sep :=
  if wce then
    { m with bank := (m.bank.set bank_sel
        (writeRowAux m.SliceWidth val write_mask (idx * m.NumByteEnables)
          (List.range m.NumByteEnables) (m.bank[bank_sel]?.getD []))) }
  else m

/-- `read(idx, bank_sel)`: assemble `read_data` from the
`NumByteEnables` consecutive slices of the entry (slice `i` occupying
bits `[i*SliceWidth, (i+1)*SliceWidth)`), then convert with
`BitsToType`.  If any of those slices is the all-X pattern the word has
unknown bits and denotes no defined `T` value (`none`). -/
def read (m : mem_array_sep) (idx bank_sel : Nat) : Option Nat :=
  if (List.range m.NumByteEnables).all
      (fun i => (m.getSlice bank_sel (idx * m.NumByteEnables + i)).isSome) then
    some (((List.range m.NumByteEnables).map
      (fun i => (m.getSlice bank_sel (idx * m.NumByteEnables + i)).getD 0
        % 2 ^ m.SliceWidth * 2 ^ (i * m.SliceWidth))).sum)
  else none

/-- Shape invariant of the fixed-size C++ array `Slice_t
bank[NumBanks][NumEntriesPerBank*NumByteEnables]`. -/
def WF (m : mem_array_sep) : Prop :=
  m.bank.length = m.NumBanks ∧
    ∀ row ∈ m.bank, row.length = m.NumEntriesPerBank * m.NumByteEnables

instance (m : mem_array_sep) : Decidable (WF m) := by
  unfold WF; infer_instance

/-! ### Basic lemmas about the write loop -/

theorem writeRowAux_cons (S val mask base i : Nat) (l : List Nat)
    (row : List Slice) :
    writeRowAux S val mask base (i :: l) row =
      writeRowAux S val mask base l
        (if mask.testBit i then row.set (base + i) (some (sliceOfWord S val i))
         else row) := rfl

theorem writeRowAux_length (S val mask base : Nat) (l : List Nat)
    (row : List Slice) :
    (writeRowAux S val mask base l row).length = row.length := by
  induction l generalizing row with
  | nil => rfl
  | cons i l ih =>
    rw [writeRowAux_cons]
    by_cases h : mask.testBit i
    · rw [if_pos h, ih, List.length_set]
    · rw [if_neg h, ih]

/-- Result of the write loop, cell by cell: position `j` holds the new
slice `j - base` of `val` exactly when `j` is one of the targeted
in-range positions whose mask bit is set; every other cell is
untouched. -/
theorem writeRowAux_getElem? (S val mask base : Nat) (l : List Nat)
    (row : List Slice) (j : Nat) :
    (writeRowAux S val mask base l row)[j]? =
      if base ≤ j ∧ (j - base) ∈ l ∧ mask.testBit (j - base) ∧ j < row.length
      then some (some (sliceOfWord S val (j - base)))
      else row[j]? := by
  induction l generalizing row with
  | nil => simp [writeRowAux]
  | cons i l ih =>
    rw [writeRowAux_cons]
    by_cases hbit : mask.testBit i
    · rw [if_pos hbit, ih, List.length_set]
      by_cases hc : base ≤ j ∧ (j - base) ∈ l ∧ mask.testBit (j - base) ∧
          j < row.length
      · rw [if_pos hc, if_pos ⟨hc.1, List.mem_cons_of_mem _ hc.2.1, hc.2.2⟩]
      · rw [if_neg hc, List.getElem?_set]
        by_cases hij : base + i = j
        · have hji : j - base = i := by omega
          have hbase : base ≤ j := by omega
          by_cases hlen : j < row.length
          · rw [if_pos hij, if_pos (hij ▸ hlen),
              if_pos ⟨hbase, by rw [hji]; exact List.mem_cons_self i l,
                hji ▸ hbit, hlen⟩, hji]
          · rw [if_pos hij, if_neg (hij ▸ hlen),
              if_neg (fun h => hlen h.2.2.2),
              List.getElem?_eq_none (by omega)]
        · rw [if_neg hij]
          rcases Nat.lt_or_ge j base with hjb | hjb
          · rw [if_neg (fun h => by omega)]
          · by_cases hji : j - base = i
            · rw [if_neg (fun _ => hij (by omega))]
            · rw [if_neg (fun h => by
                rcases List.mem_cons.mp h.2.1 with h' | h'
                · exact hji h'
                · exact hc ⟨h.1, h', h.2.2⟩)]
    · rw [if_neg hbit, ih]
      by_cases hc : base ≤ j ∧ (j - base) ∈ l ∧ mask.testBit (j - base) ∧
          j < row.length
      · rw [if_pos hc, if_pos ⟨hc.1, List.mem_cons_of_mem _ hc.2.1, hc.2.2⟩]
      · rw [if_neg hc, if_neg (fun h => by
          rcases List.mem_cons.mp h.2.1 with h' | h'
          · exact hbit (h' ▸ h.2.2.1)
          · exact hc ⟨h.1, h', h.2.2⟩)]

/-- An all-zero mask makes the write loop the identity. -/
theorem writeRowAux_zero_mask (S val base : Nat) (l : List Nat)
    (row : List Slice) : writeRowAux S val 0 base l row = row := by
  induction l generalizing row with
  | nil => rfl
  | cons i l ih => rw [writeRowAux_cons, if_neg (by simp [Nat.zero_testBit]), ih]

/-- Writing back the cell read at `i` (with out-of-range reads defaulting)
is the identity. -/
theorem set_getD_self {α : Type} (l : List α) (i : Nat) (d : α) :
    l.set i (l[i]?.getD d) = l := by
  apply List.ext_getElem?
  intro n
  rw [List.getElem?_set]
  by_cases hin : i = n
  · subst hin
    by_cases hlen : i < l.length
    · rw [if_pos rfl, if_pos hlen, List.getElem?_eq_getElem hlen]
      rfl
    · rw [if_pos rfl, if_neg hlen, List.getElem?_eq_none (by omega)]
  · rw [if_neg hin]

/-! ### Effect of `write` on the stored slices -/

theorem write_false (m : mem_array_sep) (idx b v mask : Nat) :
    m.write idx b v mask false = m := rfl

theorem write_true_bank (m : mem_array_sep) (idx b v mask : Nat) :
    (m.write idx b v mask true).bank =
      m.bank.set b
        (writeRowAux m.SliceWidth v mask (idx * m.NumByteEnables)
          (List.range m.NumByteEnables) (m.bank[b]?.getD [])) := rfl

/-- A write never touches any slice of a different bank. -/
theorem getSlice_write_bank_ne (m : mem_array_sep) (idx b v mask : Nat)
    (wce : Bool) (b2 j : Nat) (h : b ≠ b2) :
    (m.write idx b v mask wce).getSlice b2 j = m.getSlice b2 j := by
  cases wce with
  | false => rfl
  | true =>
    unfold getSlice
    rw [write_true_bank, List.getElem?_set_ne h]

/-- Full description of an enabled write, slice by slice, within the
addressed bank. -/
theorem getSlice_write_true (m : mem_array_sep) (idx b v mask j : Nat) :
    (m.write idx b v mask true).getSlice b j =
      if idx * m.NumByteEnables ≤ j ∧
         j - idx * m.NumByteEnables < m.NumByteEnables ∧
         mask.testBit (j - idx * m.NumByteEnables) ∧
         j < (m.bank[b]?.getD []).length ∧ b < m.bank.length
      then some (sliceOfWord m.SliceWidth v (j - idx * m.NumByteEnables))
      else m.getSlice b j := by
  unfold getSlice
  rw [write_true_bank, List.getElem?_set, if_pos rfl]
  by_cases hb : b < m.bank.length
  · rw [if_pos hb]
    simp only [Option.getD_some]
    rw [writeRowAux_getElem?]
    simp only [List.mem_range]
    by_cases hc : idx * m.NumByteEnables ≤ j ∧
        j - idx * m.NumByteEnables < m.NumByteEnables ∧
        mask.testBit (j - idx * m.NumByteEnables) ∧
        j < (m.bank[b]?.getD []).length
    · rw [if_pos hc, if_pos ⟨hc.1, hc.2.1, hc.2.2.1, hc.2.2.2, hb⟩]
      rfl
    · rw [if_neg hc, if_neg (fun h => hc ⟨h.1, h.2.1, h.2.2.1, h.2.2.2.1⟩)]
  · rw [if_neg hb, if_neg (fun h => hb h.2.2.2.2),
      List.getElem?_eq_none (show m.bank.length ≤ b by omega)]

/-! ### Arithmetic of slicing and reassembly -/

/-- Reassembling the `B` low slices of a word recovers the word modulo
`2 ^ (B * S)`. -/
theorem sum_sliceOfWord (v S B : Nat) :
    ((List.range B).map (fun i => sliceOfWord S v i * 2 ^ (i * S))).sum
      = v % 2 ^ (B * S) := by
  induction B with
  | zero => simp [Nat.mod_one]
  | succ B ih =>
    rw [List.range_succ, List.map_append, List.sum_append, ih]
    simp only [List.map_cons, List.map_nil, List.sum_cons, List.sum_nil,
      Nat.add_zero, sliceOfWord]
    rw [Nat.succ_mul, pow_add, Nat.mod_mul]
    ring

/-- A word assembled from `B` slices of `S` bits each fits in `B * S`
bits. -/
theorem sum_digits_lt (S : Nat) (g : Nat → Nat) (hg : ∀ i, g i < 2 ^ S)
    (B : Nat) :
    ((List.range B).map (fun i => g i * 2 ^ (i * S))).sum < 2 ^ (B * S) := by
  induction B with
  | zero => simp
  | succ B ih =>
    rw [List.range_succ, List.map_append, List.sum_append]
    simp only [List.map_cons, List.map_nil, List.sum_cons, List.sum_nil,
      Nat.add_zero]
    have h1 : g B * 2 ^ (B * S) ≤ (2 ^ S - 1) * 2 ^ (B * S) :=
      Nat.mul_le_mul_right _ (by have := hg B; omega)
    have h2 : 2 ^ (B * S) + (2 ^ S - 1) * 2 ^ (B * S) = 2 ^ ((B + 1) * S) := by
      have hp : 0 < 2 ^ S := Nat.pos_pow_of_pos S (by omega)
      have hs : 2 ^ S - 1 + 1 = 2 ^ S := by omega
      calc 2 ^ (B * S) + (2 ^ S - 1) * 2 ^ (B * S)
          = (2 ^ S - 1 + 1) * 2 ^ (B * S) := by ring
        _ = 2 ^ S * 2 ^ (B * S) := by rw [hs]
        _ = 2 ^ ((B + 1) * S) := by rw [Nat.succ_mul, pow_add]; ring
    omega

/-- Extracting slice `j` from a word assembled from slices gives back
slice `j`. -/
theorem digit_extract (S : Nat) (g : Nat → Nat) (hg : ∀ i, g i < 2 ^ S)
    (B : Nat) :
    ∀ j, j < B →
      ((List.range B).map (fun i => g i * 2 ^ (i * S))).sum
        / 2 ^ (j * S) % 2 ^ S = g j := by
  induction B with
  | zero => intro j hj; exact absurd hj (Nat.not_lt_zero j)
  | succ B ih =>
    intro j hj
    rw [List.range_succ, List.map_append, List.sum_append]
    simp only [List.map_cons, List.map_nil, List.sum_cons, List.sum_nil,
      Nat.add_zero]
    rcases Nat.lt_or_ge j B with hjB | hjB
    · obtain ⟨k, hk⟩ : ∃ k, B = k + j + 1 := ⟨B - j - 1, by omega⟩
      have hfac : g B * 2 ^ (B * S)
          = g B * 2 ^ (k * S) * 2 ^ S * 2 ^ (j * S) := by
        rw [Nat.mul_assoc, Nat.mul_assoc, ← pow_add, ← pow_add, hk]
        ring_nf
      rw [hfac, Nat.add_mul_div_right _ _ (Nat.pos_pow_of_pos (j * S) (by omega)),
        Nat.add_mul_mod_self_right]
      exact ih j hjB
    · have hjB' : j = B := by omega
      subst hjB'
      rw [Nat.add_mul_div_right _ _ (Nat.pos_pow_of_pos (j * S) (by omega)),
        Nat.div_eq_of_lt (sum_digits_lt S g hg j), Nat.zero_add,
        Nat.mod_eq_of_lt (hg j)]

/-- The slice positions of two distinct entries of a bank are disjoint:
no position `idx2 * B + i` (`i < B`) lies in the window written for
entry `idx1`. -/
theorem entry_pos_disjoint {B idx1 idx2 i : Nat} (hne : idx1 ≠ idx2)
    (hi : i < B) :
    ¬(idx1 * B ≤ idx2 * B + i ∧ idx2 * B + i - idx1 * B < B) := by
  rintro ⟨h1, h2⟩
  have hB : 0 < B := by omega
  have e1 : (idx2 * B + i) / B = idx2 := by
    rw [Nat.mul_comm idx2 B, Nat.mul_add_div hB, Nat.div_eq_of_lt hi,
      Nat.add_zero]
  have hj : idx2 * B + i = idx1 * B + (idx2 * B + i - idx1 * B) :=
    (Nat.add_sub_cancel' h1).symm
  have e2 : (idx2 * B + i) / B = idx1 := by
    rw [hj, Nat.mul_comm idx1 B, Nat.mul_add_div hB,
      Nat.div_eq_of_lt (show idx2 * B + i - B * idx1 < B from by
        rw [Nat.mul_comm B idx1]; exact h2),
      Nat.add_zero]
  exact hne (e2.symm.trans e1)

/-! ### `read` lemmas -/

theorem list_all_congr {α : Type} (l : List α) (f g : α → Bool)
    (h : ∀ a ∈ l, f a = g a) : l.all f = l.all g := by
  induction l with
  | nil => rfl
  | cons a l ih =>
    rw [List.all_cons, List.all_cons, h a (List.mem_cons_self a l),
      ih (fun x hx => h x (List.mem_cons_of_mem a hx))]

/-- `read` only looks at the `NumByteEnables` slices of its entry: two
states agreeing there (with the same geometry) read the same. -/
theorem read_eq_of_getSlice_eq (m m' : mem_array_sep) (idx b idx' b' : Nat)
    (hB : m'.NumByteEnables = m.NumByteEnables)
    (hS : m'.SliceWidth = m.SliceWidth)
    (h : ∀ i, i < m.NumByteEnables →
      m'.getSlice b' (idx' * m.NumByteEnables + i)
        = m.getSlice b (idx * m.NumByteEnables + i)) :
    m'.read idx' b' = m.read idx b := by
  unfold read
  rw [hB, hS]
  have hall : (List.range m.NumByteEnables).all
      (fun i => (m'.getSlice b' (idx' * m.NumByteEnables + i)).isSome)
      = (List.range m.NumByteEnables).all
      (fun i => (m.getSlice b (idx * m.NumByteEnables + i)).isSome) :=
    list_all_congr _ _ _ (fun i hi => by rw [h i (List.mem_range.mp hi)])
  have hmap : (List.range m.NumByteEnables).map
      (fun i => (m'.getSlice b' (idx' * m.NumByteEnables + i)).getD 0
        % 2 ^ m.SliceWidth * 2 ^ (i * m.SliceWidth))
      = (List.range m.NumByteEnables).map
      (fun i => (m.getSlice b (idx * m.NumByteEnables + i)).getD 0
        % 2 ^ m.SliceWidth * 2 ^ (i * m.SliceWidth)) :=
    List.map_congr_left (fun i hi => by rw [h i (List.mem_range.mp hi)])
  rw [hall, hmap]

/-- When every slice of the entry is a defined pattern, `read` returns
the word assembled from them. -/
theorem read_eq_some (m : mem_array_sep) (idx b : Nat) (g : Nat → Nat)
    (h : ∀ i, i < m.NumByteEnables →
      m.getSlice b (idx * m.NumByteEnables + i) = some (g i)) :
    m.read idx b = some (((List.range m.NumByteEnables).map
      (fun i => g i % 2 ^ m.SliceWidth * 2 ^ (i * m.SliceWidth))).sum) := by
  unfold read
  have hall : (List.range m.NumByteEnables).all
      (fun i => (m.getSlice b (idx * m.NumByteEnables + i)).isSome) = true := by
    rw [List.all_eq_true]
    intro i hi
    rw [h i (List.mem_range.mp hi)]
    rfl
  rw [if_pos hall]
  congr 2
  apply List.map_congr_left
  intro i hi
  rw [h i (List.mem_range.mp hi)]
  rfl

/-! ### Small helper facts -/

theorem write_NumByteEnables (m : mem_array_sep) (idx b v mask : Nat)
    (wce : Bool) :
    (m.write idx b v mask wce).NumByteEnables = m.NumByteEnables := by
  cases wce <;> rfl

theorem write_SliceWidth (m : mem_array_sep) (idx b v mask : Nat)
    (wce : Bool) :
    (m.write idx b v mask wce).SliceWidth = m.SliceWidth := by
  cases wce <;> rfl

/-- Slice position `idx * B + i` of an entry lies inside the bank row. -/
theorem entry_slice_lt {epb B idx i : Nat} (hidx : idx < epb) (hi : i < B) :
    idx * B + i < epb * B := by
  calc idx * B + i < (idx + 1) * B := by rw [Nat.succ_mul]; omega
    _ ≤ epb * B := Nat.mul_le_mul_right _ hidx

/-- In a well-formed state, the addressed bank row has the declared
length. -/
theorem rowlen_of_WF (m : mem_array_sep) (hwf : m.WF) {b : Nat}
    (hb : b < m.NumBanks) :
    (m.bank[b]?.getD []).length
      = m.NumEntriesPerBank * m.NumByteEnables := by
  have hble : b < m.bank.length := by rw [hwf.1]; exact hb
  rw [List.getElem?_eq_getElem hble]
  exact hwf.2 _ (List.getElem_mem hble)

/-- An enabled write never changes the length of the bank row. -/
theorem rowlen_write_true (m : mem_array_sep) (idx b v mask : Nat) :
    ((m.write idx b v mask true).bank[b]?.getD []).length
      = (m.bank[b]?.getD []).length := by
  rw [write_true_bank, List.getElem?_set, if_pos rfl]
  by_cases hb : b < m.bank.length
  · rw [if_pos hb]
    simp only [Option.getD_some]
    rw [writeRowAux_length]
  · rw [if_neg hb, List.getElem?_eq_none (show m.bank.length ≤ b by omega)]

/-! ### The claims -/

/-- Claim C6: a write with `writeEnable` false modifies no slice of any
bank — the storage state is unchanged and every subsequent read at every
valid index returns the same result as before the call. -/
theorem write_enable_gate (m : mem_array_sep) (idx b v mask idx' b' : Nat) :
    m.write idx b v mask false = m ∧
      (m.write idx b v mask false).read idx' b' = m.read idx' b' :=
  ⟨rfl, rfl⟩

/-- Claim C7: a write with an all-zero mask leaves the entire storage
state unchanged, regardless of the `writeEnable` argument. -/
theorem zero_mask_write_noop (m : mem_array_sep) (idx b v : Nat)
    (wce : Bool) : m.write idx b v 0 wce = m := by
  cases wce with
  | false => rfl
  | true =>
    have h0 : m.write idx b v 0 true
        = { m with bank := (m.bank.set b
            (writeRowAux m.SliceWidth v 0 (idx * m.NumByteEnables)
              (List.range m.NumByteEnables) (m.bank[b]?.getD []))) } := rfl
    rw [h0, writeRowAux_zero_mask, set_getD_self]

/-- Claim C3: the concrete scenario with 4 entries, 2 banks, 2 byte
enables and a 16-bit word: `write(0,0,0x1234,0b01,true)` then
`write(0,0,0x5678,0b10,true)` makes `read(0,0)` return `0x5634`; after
`clear()`, `read(0,0)` returns `0x0000`. -/
theorem concrete_scenario :
    (((mem_array_sep.init 4 2 2 16).write 0 0 0x1234 0b01 true).write
        0 0 0x5678 0b10 true).read 0 0 = some 0x5634 ∧
      ((((mem_array_sep.init 4 2 2 16).write 0 0 0x1234 0b01 true).write
        0 0 0x5678 0b10 true).clear).read 0 0 = some 0x0000 := by
  decide

/-- Claim C4, counterexample: in the 16-bit, 2-byte-enable instantiation
the element type's default value is `0` and its serialized form is the
all-zero pattern, so the claim asserts that slice `(0,0)` holds `some 0`
right after construction and that `read(0,0)` returns `some 0`.  The
constructor instead fills every cell with a default-constructed
`sc_lv` — the all-X pattern (`none`) — so both assertions fail. -/
theorem construction_default_slice_counterexample :
    (mem_array_sep.init 4 2 2 16).getSlice 0 0 = none ∧
      (mem_array_sep.init 4 2 2 16).getSlice 0 0 ≠ some 0 ∧
      (mem_array_sep.init 4 2 2 16).read 0 0 ≠ some 0 := by
  decide

/-- Claim C4, amended: immediately after construction every slice of
every bank holds the default-constructed `sc_lv` slice, i.e. the all-X
(unknown) pattern — not the serialized form of a default-constructed
`T` — and a read before any write deterministically returns the all-X
word, which denotes no defined value of `T`. -/
theorem construction_all_unknown (ne nb nbe w idx b : Nat) (hB : 0 < nbe) :
    (∀ b' j, (mem_array_sep.init ne nb nbe w).getSlice b' j = none) ∧
      (mem_array_sep.init ne nb nbe w).read idx b = none := by
  have hs : ∀ b' j, (init ne nb nbe w).getSlice b' j = none := by
    intro b' j
    simp only [getSlice, init]
    rw [List.getElem?_replicate]
    by_cases hb : b' < nb
    · rw [if_pos hb]
      simp only [Option.getD_some]
      rw [List.getElem?_replicate]
      by_cases hj : j < ne / nb * nbe
      · rw [if_pos hj]
        rfl
      · rw [if_neg hj]
        rfl
    · rw [if_neg hb]
      simp
  refine ⟨hs, ?_⟩
  have hnot : ¬((List.range (init ne nb nbe w).NumByteEnables).all
      (fun i => ((init ne nb nbe w).getSlice b
        (idx * (init ne nb nbe w).NumByteEnables + i)).isSome) = true) := by
    rw [List.all_eq_true]
    intro hall
    have h0 := hall 0 (List.mem_range.mpr
      (show 0 < (init ne nb nbe w).NumByteEnables from hB))
    rw [hs] at h0
    simp at h0
  unfold read
  rw [if_neg hnot]

/-- Claim C5: after `clear()` every slice of every bank holds the
all-zero pattern, and a read at any valid index returns the value whose
serialized form is all zero bits. -/
theorem clear_zeroes (m : mem_array_sep) (idx b : Nat)
    (hidx : idx < m.NumEntriesPerBank) (hb : b < m.NumBanks) :
    (∀ b' j, b' < m.NumBanks →
        j < m.NumEntriesPerBank * m.NumByteEnables →
        m.clear.getSlice b' j = some 0) ∧
      m.clear.read idx b = some 0 := by
  have hs : ∀ b' j, b' < m.NumBanks →
      j < m.NumEntriesPerBank * m.NumByteEnables →
      m.clear.getSlice b' j = some 0 := by
    intro b' j hb' hj
    simp only [getSlice, clear]
    rw [List.getElem?_replicate, if_pos hb']
    simp only [Option.getD_some]
    rw [List.getElem?_replicate, if_pos hj]
    rfl
  refine ⟨hs, ?_⟩
  have hr := read_eq_some m.clear idx b (fun _ => 0)
    (fun i hi => hs b _ hb (entry_slice_lt hidx hi))
  rw [hr]
  simp

/-- Claim C8: a write addressed to bank `b1` leaves every slice of a
different bank `b2` unchanged, so the read result at `(idx', b2)` is the
same before and after the write. -/
theorem bank_isolation (m : mem_array_sep) (idx b1 v mask : Nat)
    (wce : Bool) (idx' b2 : Nat) (h : b1 ≠ b2) :
    (∀ j, (m.write idx b1 v mask wce).getSlice b2 j = m.getSlice b2 j) ∧
      (m.write idx b1 v mask wce).read idx' b2 = m.read idx' b2 := by
  refine ⟨fun j => getSlice_write_bank_ne m idx b1 v mask wce b2 j h, ?_⟩
  exact read_eq_of_getSlice_eq m (m.write idx b1 v mask wce) idx' b2 idx' b2
    (write_NumByteEnables m idx b1 v mask wce)
    (write_SliceWidth m idx b1 v mask wce)
    (fun i _ => getSlice_write_bank_ne m idx b1 v mask wce b2 _ h)

/-- Claim C9: within one bank, distinct entries are isolated — a write
to entry `idx1` leaves all `NumByteEnables` slices of a different entry
`idx2` unchanged, so the read of `idx2` is unaffected. -/
theorem entry_isolation (m : mem_array_sep) (b idx1 idx2 v mask : Nat)
    (wce : Bool) (h : idx1 ≠ idx2) :
    (∀ i, i < m.NumByteEnables →
        (m.write idx1 b v mask wce).getSlice b (idx2 * m.NumByteEnables + i)
          = m.getSlice b (idx2 * m.NumByteEnables + i)) ∧
      (m.write idx1 b v mask wce).read idx2 b = m.read idx2 b := by
  have hs : ∀ i, i < m.NumByteEnables →
      (m.write idx1 b v mask wce).getSlice b (idx2 * m.NumByteEnables + i)
        = m.getSlice b (idx2 * m.NumByteEnables + i) := by
    intro i hi
    cases wce with
    | false => rfl
    | true =>
      rw [getSlice_write_true,
        if_neg (fun hcond => entry_pos_disjoint h hi ⟨hcond.1, hcond.2.1⟩)]
  exact ⟨hs, read_eq_of_getSlice_eq m (m.write idx1 b v mask wce) idx2 b idx2 b
    (write_NumByteEnables m idx1 b v mask wce)
    (write_SliceWidth m idx1 b v mask wce) hs⟩

/-- Claim C1: for every valid `(idx, b)` and every representable word
`v`, a full-mask enabled write followed by a read at the same location
returns exactly `v`'s serialized pattern, whenever `NumByteEnables`
divides the word width. -/
theorem read_after_full_mask_write (m : mem_array_sep) (idx b v : Nat)
    (hwf : m.WF) (hidx : idx < m.NumEntriesPerBank) (hb : b < m.NumBanks)
    (hv : v < 2 ^ m.WordWidth) (hdvd : m.NumByteEnables ∣ m.WordWidth) :
    (m.write idx b v (2 ^ m.NumByteEnables - 1) true).read idx b
      = some v := by
  have hble : b < m.bank.length := by rw [hwf.1]; exact hb
  have hslices : ∀ i, i < m.NumByteEnables →
      (m.write idx b v (2 ^ m.NumByteEnables - 1) true).getSlice b
        (idx * m.NumByteEnables + i)
        = some (sliceOfWord m.SliceWidth v i) := by
    intro i hi
    have hsub : idx * m.NumByteEnables + i - idx * m.NumByteEnables = i := by
      omega
    rw [getSlice_write_true, if_pos ⟨Nat.le_add_right _ _,
      by rw [hsub]; exact hi,
      by rw [hsub, Nat.testBit_two_pow_sub_one]; exact decide_eq_true hi,
      by rw [rowlen_of_WF m hwf hb]; exact entry_slice_lt hidx hi,
      hble⟩, hsub]
  have hr := read_eq_some (m.write idx b v (2 ^ m.NumByteEnables - 1) true)
    idx b (fun i => sliceOfWord m.SliceWidth v i) hslices
  rw [hr]
  congr 1
  show ((List.range m.NumByteEnables).map
      (fun i => sliceOfWord m.SliceWidth v i % 2 ^ m.SliceWidth
        * 2 ^ (i * m.SliceWidth))).sum = v
  have hmod : ∀ i ∈ List.range m.NumByteEnables,
      sliceOfWord m.SliceWidth v i % 2 ^ m.SliceWidth
        * 2 ^ (i * m.SliceWidth)
        = sliceOfWord m.SliceWidth v i * 2 ^ (i * m.SliceWidth) := by
    intro i _
    simp only [sliceOfWord]
    rw [Nat.mod_mod_of_dvd _ (dvd_refl _)]
  rw [List.map_congr_left hmod, sum_sliceOfWord]
  show v % 2 ^ (m.NumByteEnables * (m.WordWidth / m.NumByteEnables)) = v
  rw [Nat.mul_div_cancel' hdvd, Nat.mod_eq_of_lt hv]

/-- Claim C2: writing `v1` under mask `mask1` and then `v2` under the
complementary mask at the same location yields a read whose slice `j`
equals slice `j` of `v1` when bit `j` of `mask1` is set, and slice `j`
of `v2` otherwise. -/
theorem mask_isolation (m : mem_array_sep) (idx b v1 v2 mask1 mask2 : Nat)
    (hwf : m.WF) (hidx : idx < m.NumEntriesPerBank) (hb : b < m.NumBanks)
    (hcomp : ∀ i, i < m.NumByteEnables →
      mask2.testBit i = !mask1.testBit i) :
    ∃ w, ((m.write idx b v1 mask1 true).write idx b v2 mask2 true).read
        idx b = some w ∧
      ∀ j, j < m.NumByteEnables →
        w / 2 ^ (j * m.SliceWidth) % 2 ^ m.SliceWidth =
          if mask1.testBit j then sliceOfWord m.SliceWidth v1 j
          else sliceOfWord m.SliceWidth v2 j := by
  have hble : b < m.bank.length := by rw [hwf.1]; exact hb
  have hble1 : b < (m.write idx b v1 mask1 true).bank.length := by
    rw [write_true_bank, List.length_set]; exact hble
  have hrowlen1 : (((m.write idx b v1 mask1 true).bank[b]?.getD
      []).length) = m.NumEntriesPerBank * m.NumByteEnables := by
    rw [rowlen_write_true, rowlen_of_WF m hwf hb]
  have hslices : ∀ i, i < m.NumByteEnables →
      ((m.write idx b v1 mask1 true).write idx b v2 mask2 true).getSlice b
        (idx * m.NumByteEnables + i)
        = some (if mask1.testBit i then sliceOfWord m.SliceWidth v1 i
            else sliceOfWord m.SliceWidth v2 i) := by
    intro i hi
    have hsub : idx * m.NumByteEnables + i - idx * m.NumByteEnables = i := by
      omega
    by_cases h2 : mask2.testBit i
    · have h1 : mask1.testBit i = false := by
        have hc := hcomp i hi
        cases hm1 : mask1.testBit i
        · rfl
        · rw [hm1] at hc
          simp at hc
          rw [hc] at h2
          simp at h2
      rw [getSlice_write_true]
      simp only [write_NumByteEnables, write_SliceWidth]
      rw [if_pos ⟨Nat.le_add_right _ _,
        by rw [hsub]; exact hi,
        by rw [hsub]; exact h2,
        by rw [hrowlen1]; exact entry_slice_lt hidx hi,
        hble1⟩, hsub, if_neg (show ¬mask1.testBit i = true by simp [h1])]
    · have h1 : mask1.testBit i = true := by
        have hc := hcomp i hi
        cases hm1 : mask1.testBit i
        · rw [hm1] at hc
          simp at hc
          exact absurd hc h2
        · rfl
      rw [getSlice_write_true]
      simp only [write_NumByteEnables, write_SliceWidth]
      rw [if_neg (fun hcond => by
          rw [hsub] at hcond
          exact h2 hcond.2.2.1),
        getSlice_write_true, if_pos ⟨Nat.le_add_right _ _,
          by rw [hsub]; exact hi,
          by rw [hsub]; exact h1,
          by rw [rowlen_of_WF m hwf hb]; exact entry_slice_lt hidx hi,
          hble⟩, hsub, if_pos h1]
  have hr := read_eq_some
    ((m.write idx b v1 mask1 true).write idx b v2 mask2 true) idx b
    (fun i => if mask1.testBit i then sliceOfWord m.SliceWidth v1 i
      else sliceOfWord m.SliceWidth v2 i) hslices
  refine ⟨((List.range m.NumByteEnables).map
      (fun i => (if mask1.testBit i then sliceOfWord m.SliceWidth v1 i
        else sliceOfWord m.SliceWidth v2 i)
        * 2 ^ (i * m.SliceWidth))).sum, ?_, ?_⟩
  · rw [hr]
    congr 1
    show ((List.range m.NumByteEnables).map
        (fun i => (if mask1.testBit i then sliceOfWord m.SliceWidth v1 i
          else sliceOfWord m.SliceWidth v2 i) % 2 ^ m.SliceWidth
          * 2 ^ (i * m.SliceWidth))).sum = _
    refine congrArg List.sum (List.map_congr_left ?_)
    intro i _
    congr 1
    by_cases h1 : mask1.testBit i <;>
      simp [h1, sliceOfWord, Nat.mod_mod_of_dvd _ (dvd_refl _)]
  · intro j hj
    have hglt : ∀ i, (if mask1.testBit i then sliceOfWord m.SliceWidth v1 i
        else sliceOfWord m.SliceWidth v2 i) < 2 ^ m.SliceWidth := by
      intro i
      have hp : 0 < 2 ^ m.SliceWidth := Nat.pos_pow_of_pos _ (by omega)
      by_cases h1 : mask1.testBit i <;>
        simp [h1, sliceOfWord] <;> exact Nat.mod_lt _ hp
    exact digit_extract m.SliceWidth _ hglt m.NumByteEnables j hj

/-- Two write loops over the same window with masks that never share a
set bit commute on the row. -/
theorem writeRowAux_swap (S v1 v2 mask1 mask2 base B : Nat)
    (row : List Slice)
    (htest : ∀ i, ¬(mask1.testBit i = true ∧ mask2.testBit i = true)) :
    writeRowAux S v2 mask2 base (List.range B)
        (writeRowAux S v1 mask1 base (List.range B) row)
      = writeRowAux S v1 mask1 base (List.range B)
        (writeRowAux S v2 mask2 base (List.range B) row) := by
  apply List.ext_getElem?
  intro j
  rw [writeRowAux_getElem?, writeRowAux_getElem?, writeRowAux_getElem?,
    writeRowAux_getElem?, writeRowAux_length, writeRowAux_length]
  by_cases hc2 : base ≤ j ∧ (j - base) ∈ List.range B ∧
      mask2.testBit (j - base) ∧ j < row.length
  · rw [if_pos hc2,
      if_neg (fun hc1 => htest (j - base) ⟨hc1.2.2.1, hc2.2.2.1⟩),
      if_pos hc2]
  · rw [if_neg hc2]
    by_cases hc1 : base ≤ j ∧ (j - base) ∈ List.range B ∧
        mask1.testBit (j - base) ∧ j < row.length
    · rw [if_pos hc1, if_pos hc1]
    · rw [if_neg hc1, if_neg hc1, if_neg hc2]

/-- Claim C10: enabled writes to the same location with disjoint masks
commute — the two execution orders produce exactly the same storage
state. -/
theorem disjoint_mask_writes_commute (m : mem_array_sep)
    (idx b v1 v2 mask1 mask2 : Nat) (hdisj : mask1 &&& mask2 = 0) :
    (m.write idx b v1 mask1 true).write idx b v2 mask2 true
      = (m.write idx b v2 mask2 true).write idx b v1 mask1 true := by
  have htest : ∀ i, ¬(mask1.testBit i = true ∧ mask2.testBit i = true) := by
    rintro i ⟨h1, h2⟩
    have h := Nat.testBit_land mask1 mask2 i
    rw [hdisj, Nat.zero_testBit, h1, h2] at h
    simp at h
  have e1 : ((m.write idx b v1 mask1 true).write idx b v2 mask2 true).bank
      = m.bank.set b (writeRowAux m.SliceWidth v2 mask2
          (idx * m.NumByteEnables) (List.range m.NumByteEnables)
          ((m.bank.set b (writeRowAux m.SliceWidth v1 mask1
            (idx * m.NumByteEnables) (List.range m.NumByteEnables)
            (m.bank[b]?.getD [])))[b]?.getD [])) := by
    have h0 : ((m.write idx b v1 mask1 true).write idx b v2 mask2 true).bank
        = (m.bank.set b (writeRowAux m.SliceWidth v1 mask1
            (idx * m.NumByteEnables) (List.range m.NumByteEnables)
            (m.bank[b]?.getD []))).set b (writeRowAux m.SliceWidth v2 mask2
          (idx * m.NumByteEnables) (List.range m.NumByteEnables)
          ((m.bank.set b (writeRowAux m.SliceWidth v1 mask1
            (idx * m.NumByteEnables) (List.range m.NumByteEnables)
            (m.bank[b]?.getD [])))[b]?.getD [])) := rfl
    rw [h0, List.set_set]
  have e2 : ((m.write idx b v2 mask2 true).write idx b v1 mask1 true).bank
      = m.bank.set b (writeRowAux m.SliceWidth v1 mask1
          (idx * m.NumByteEnables) (List.range m.NumByteEnables)
          ((m.bank.set b (writeRowAux m.SliceWidth v2 mask2
            (idx * m.NumByteEnables) (List.range m.NumByteEnables)
            (m.bank[b]?.getD [])))[b]?.getD [])) := by
    have h0 : ((m.write idx b v2 mask2 true).write idx b v1 mask1 true).bank
        = (m.bank.set b (writeRowAux m.SliceWidth v2 mask2
            (idx * m.NumByteEnables) (List.range m.NumByteEnables)
            (m.bank[b]?.getD []))).set b (writeRowAux m.SliceWidth v1 mask1
          (idx * m.NumByteEnables) (List.range m.NumByteEnables)
          ((m.bank.set b (writeRowAux m.SliceWidth v2 mask2
            (idx * m.NumByteEnables) (List.range m.NumByteEnables)
            (m.bank[b]?.getD [])))[b]?.getD [])) := rfl
    rw [h0, List.set_set]
  have hbank : ((m.write idx b v1 mask1 true).write idx b v2 mask2 true).bank
      = ((m.write idx b v2 mask2 true).write idx b v1 mask1 true).bank := by
    rw [e1, e2]
    by_cases hble : b < m.bank.length
    · have hrow : ∀ r : List Slice, (m.bank.set b r)[b]?.getD [] = r := by
        intro r
        rw [List.getElem?_set, if_pos rfl, if_pos hble]
        rfl
      rw [hrow, hrow, writeRowAux_swap _ _ _ _ _ _ _ _ htest]
    · have hset : ∀ r : List Slice, m.bank.set b r = m.bank := by
        intro r
        apply List.ext_getElem?
        intro n
        rw [List.getElem?_set]
        by_cases hbn : b = n
        · subst hbn
          rw [if_pos rfl, if_neg hble,
            List.getElem?_eq_none (show m.bank.length ≤ b by omega)]
        · rw [if_neg hbn]
      rw [hset, hset]
  have h1 : (m.write idx b v1 mask1 true).write idx b v2 mask2 true
      = { m with bank :=
          ((m.write idx b v1 mask1 true).write idx b v2 mask2 true).bank } :=
    rfl
  have h2 : (m.write idx b v2 mask2 true).write idx b v1 mask1 true
      = { m with bank :=
          ((m.write idx b v2 mask2 true).write idx b v1 mask1 true).bank } :=
    rfl
  rw [h1, h2, hbank]

/-! ### Witnesses: each hypothesis-bearing claim theorem applied at a
concrete instantiation (4 entries, 2 banks, 2 byte enables, 16-bit
word). -/

/-- Witness for claim C1 at `v = 0x1234`. -/
theorem read_after_full_mask_write_witness :
    ((mem_array_sep.init 4 2 2 16).write 0 0 4660 (2 ^ 2 - 1) true).read 0 0
      = some 4660 :=
  read_after_full_mask_write (init 4 2 2 16) 0 0 4660 (by decide)
    (by decide) (by decide) (by decide) (by decide)

/-- Witness for claim C2 at `v1 = 0x1234`, `mask1 = 0b01`,
`v2 = 0x5678`, `mask2 = 0b10`. -/
theorem mask_isolation_witness :
    ∃ w, (((mem_array_sep.init 4 2 2 16).write 0 0 4660 1 true).write
        0 0 22136 2 true).read 0 0 = some w ∧
      ∀ j, j < 2 →
        w / 2 ^ (j * 8) % 2 ^ 8 =
          if Nat.testBit 1 j then sliceOfWord 8 4660 j
          else sliceOfWord 8 22136 j :=
  mask_isolation (init 4 2 2 16) 0 0 4660 22136 1 2 (by decide)
    (by decide) (by decide) (by decide)

/-- Witness for the amended claim C4. -/
theorem construction_all_unknown_witness :
    (∀ b' j, (mem_array_sep.init 4 2 2 16).getSlice b' j = none) ∧
      (mem_array_sep.init 4 2 2 16).read 0 0 = none :=
  construction_all_unknown 4 2 2 16 0 0 (by decide)

/-- Witness for claim C5. -/
theorem clear_zeroes_witness :
    (∀ b' j, b' < 2 → j < 4 →
        (mem_array_sep.init 4 2 2 16).clear.getSlice b' j = some 0) ∧
      (mem_array_sep.init 4 2 2 16).clear.read 0 0 = some 0 :=
  clear_zeroes (init 4 2 2 16) 0 0 (by decide) (by decide)

/-- Witness for claim C8, writing bank 0 and observing bank 1. -/
theorem bank_isolation_witness :
    (∀ j, ((mem_array_sep.init 4 2 2 16).write 0 0 4660 3 true).getSlice 1 j
        = (mem_array_sep.init 4 2 2 16).getSlice 1 j) ∧
      ((mem_array_sep.init 4 2 2 16).write 0 0 4660 3 true).read 0 1
        = (mem_array_sep.init 4 2 2 16).read 0 1 :=
  bank_isolation (init 4 2 2 16) 0 0 4660 3 true 0 1 (by decide)

/-- Witness for claim C9, writing entry 0 and observing entry 1. -/
theorem entry_isolation_witness :
    (∀ i, i < 2 →
        ((mem_array_sep.init 4 2 2 16).write 0 0 4660 3 true).getSlice 0
            (1 * 2 + i)
          = (mem_array_sep.init 4 2 2 16).getSlice 0 (1 * 2 + i)) ∧
      ((mem_array_sep.init 4 2 2 16).write 0 0 4660 3 true).read 1 0
        = (mem_array_sep.init 4 2 2 16).read 1 0 :=
  entry_isolation (init 4 2 2 16) 0 0 1 4660 3 true (by decide)

/-- Witness for claim C10 with disjoint masks `0b01` and `0b10`. -/
theorem disjoint_mask_writes_commute_witness :
    ((mem_array_sep.init 4 2 2 16).write 0 0 4660 1 true).write
        0 0 22136 2 true
      = ((mem_array_sep.init 4 2 2 16).write 0 0 22136 2 true).write
        0 0 4660 1 true :=
  disjoint_mask_writes_commute (init 4 2 2 16) 0 0 4660 22136 1 2
    (by decide)

end mem_array_sep
